import Mathlib

/-!
Verification of the LLaMA-Mesh demo app (`src/app.py`).

The repository is a single Python file with two routines of interest:

* `apply_gradient_color` (lines 145-178): writes a pasted OBJ string to a
  temporary file, loads it with `trimesh.load_mesh`, colors every vertex by a
  gradient over its Y coordinate, and exports the recolored mesh to a `.glb`
  file whose path it returns.
* `chat_llama3_8b` (lines 192-261): builds a chat-template conversation from
  the history, starts `model.generate` on a background thread, and streams the
  decoded chunks back to the UI, catching any exception raised by the streamer
  iterator and yielding one final error string.

Numeric code (`numpy` float64 arithmetic, the Python `float` temperature) is
embedded over `ℚ`, i.e. exact arithmetic; the external library calls
(`trimesh.load_mesh`, `export_glb`, the tokenizer and model) are parameters of
the embedded functions.  The file system is an association list from paths to
file contents, written with most-recent-write-first lookup.
-/

/-- A loaded trimesh mesh: the vertex array (rows of `mesh.vertices`, each an
`(x, y, z)` triple) and the vertex-color array (`mesh.visual.vertex_colors`,
each an RGBA quadruple). -/
structure Mesh where
  vertices : List (ℚ × ℚ × ℚ)
  vertexColors : List (ℚ × ℚ × ℚ × ℚ)
deriving Repr, DecidableEq

/-- `vertices[:, 1]` : the list of Y coordinates of the mesh vertices. -/
def yValues (m : Mesh) : List ℚ :=
  m.vertices.map (fun v => v.2.1)

/-- `ndarray.min()` over a list.  NumPy raises on an empty array, so the `0`
returned for `[]` is a modelling default that no claim exercises: every
theorem below either assumes the list nonempty or quantifies over members. -/
def listMin : List ℚ → ℚ
  | [] => 0
  | x :: xs => xs.foldl min x

/-- `ndarray.max()` over a list; same empty-list caveat as `listMin`. -/
def listMax : List ℚ → ℚ
  | [] => 0
  | x :: xs => xs.foldl max x

/-- The normalized Y value of a single vertex, as computed by the conditional
expression at lines 161-165 of `src/app.py`:
`(y - y_min) / (y_max - y_min)` when `y_max > y_min`, else `0`. -/
def normY (ys : List ℚ) (y : ℚ) : ℚ :=
  if listMin ys < listMax ys then (y - listMin ys) / (listMax ys - listMin ys) else 0

/-- `y_normalized` (lines 161-165): elementwise `(y_values - y_values.min())
/ (y_values.max() - y_values.min())` when `y_values.max() > y_values.min()`,
else `np.zeros_like(y_values)`. -/
def yNormalized (ys : List ℚ) : List ℚ :=
  if listMin ys < listMax ys then
    ys.map (fun y => (y - listMin ys) / (listMax ys - listMin ys))
  else
    ys.map (fun _ => (0 : ℚ))

/-- The color array built at lines 167-170: `colors = np.zeros((n, 4))`,
`colors[:, 0] = y_normalized`, `colors[:, 2] = 1 - y_normalized`,
`colors[:, 3] = 1.0`; so row `i` is `(r i, 0, 1 - r i, 1)`. -/
def gradientColors (ys : List ℚ) : List (ℚ × ℚ × ℚ × ℚ) :=
  (yNormalized ys).map (fun r => (r, 0, 1 - r, 1))

/-- `mesh.visual.vertex_colors = colors` (line 172): the loaded mesh with its
vertex colors replaced by the gradient colors over its Y values. -/
def recolor (m : Mesh) : Mesh :=
  { m with vertexColors := gradientColors (yValues m) }

/-- A file's contents: OBJ text or exported GLB bytes. -/
inductive FileData where
  | text (s : String)
  | bytes (b : List ℕ)
deriving Repr, DecidableEq

/-- The file system: paths mapped to contents, most recent write first. -/
abbrev FileSystem := List (String × FileData)

/-- Writing a file (`open(path, mode) ... f.write(data)`). -/
def writeFile (fs : FileSystem) (path : String) (d : FileData) : FileSystem :=
  (path, d) :: fs

/-- Reading a file back: the most recent write to `path`, if any. -/
def readFile (fs : FileSystem) (path : String) : Option FileData :=
  (fs.find? (fun e => e.1 == path)).map Prod.snd

/-- `apply_gradient_color` (lines 145-178 of `src/app.py`), embedded over an
explicit file system.  The external calls are parameters: `load_mesh` stands
for `trimesh.load_mesh` applied to the contents of the OBJ file just written,
and `export_glb` for `trimesh.exchange.gltf.export_glb`; `tempName` is the
name handed out by `tempfile.NamedTemporaryFile(suffix="", delete=False)`.
The function writes `mesh_text` to `tempName ++ ".obj"`, loads a mesh from
that file, assigns the gradient vertex colors, writes the GLB export of the
recolored mesh to `tempName ++ ".glb"`, and returns that path. -/
def apply_gradient_color (load_mesh : String → Mesh) (export_glb : Mesh → List ℕ)
    (tempName : String) (mesh_text : String) (fs : FileSystem) :
    FileSystem × String :=
  let objPath := tempName ++ ".obj"
  let fs1 := writeFile fs objPath (FileData.text mesh_text)
  let objContents :=
    match readFile fs1 objPath with
    | some (FileData.text s) => s
    | _ => ""
  let mesh := load_mesh objContents
  let recolored := recolor mesh
  let glbPath := tempName ++ ".glb"
  let fs2 := writeFile fs1 glbPath (FileData.bytes (export_glb recolored))
  (fs2, glbPath)

/-- One entry of the `conversation` list: a `{"role": ..., "content": ...}`
dict as built at lines 208-216 of `src/app.py`. -/
structure ChatMessage where
  role : String
  content : String
deriving Repr, DecidableEq

/-- The conversation-building loop of `chat_llama3_8b` (lines 208-216):
starting from `conversation = []`, each `(user, assistant)` pair of `history`
extends the list with a user entry then an assistant entry, and finally the
new `message` is appended as a user entry. -/
def buildConversation : List (String × String) → String → List ChatMessage
  | [], message => [⟨"user", message⟩]
  | (user, assistant) :: rest, message =>
      ⟨"user", user⟩ :: ⟨"assistant", assistant⟩ :: buildConversation rest message

/-- `"".join(outputs)` : concatenation of a list of strings. -/
def strJoin : List String → String
  | [] => ""
  | s :: rest => s ++ strJoin rest

/-- The literal appended to the output when streaming fails (line 258). -/
def errorSuffix : String := "\n\n[Error during generation. Please try again.]"

/-- The body of the `try` block of `chat_llama3_8b` (lines 250-254) before the
exception handler: `outputs = []` then `for text in streamer: outputs.append(
text); yield "".join(outputs)`.  `chunks` are the text chunks the streamer
iterator delivers before it either finishes or raises; `err` records whether
pulling the next chunk after those raises an exception.  The result is
`(yields inside the try block, final value of outputs, whether an exception
was raised)`. -/
def streamRaw (outputs : List String) (chunks : List String) (err : Bool) :
    List String × List String × Bool :=
  match chunks with
  | [] => ([], outputs, err)
  | c :: rest =>
      let outputs1 := outputs ++ [c]
      let r := streamRaw outputs1 rest err
      (strJoin outputs1 :: r.1, r.2.1, r.2.2)

/-- The full streaming section of `chat_llama3_8b` (lines 250-258): the `try`
block's yields, and — when the iterator raised — the `except` handler's single
extra yield `"".join(outputs) + "\n\n[Error during generation. Please try
again.]"`.  The result is the complete list of values the generator yields. -/
def chatYields (chunks : List String) (err : Bool) : List String :=
  let r := streamRaw [] chunks err
  if r.2.2 then r.1 ++ [strJoin r.2.1 ++ errorSuffix] else r.1

/-- A Python heap cell holding either a list of `(user, assistant)` pairs
(the `history` argument) or a list of role/content dicts (the fresh
`conversation` list). -/
inductive Cell where
  | pairs (ps : List (String × String))
  | msgs (ms : List ChatMessage)
deriving Repr, DecidableEq

/-- A heap of Python list objects, addressed by position; allocation appends
a new cell at address `heap.length`. -/
abbrev Heap := List Cell

/-- Reading the `history` list stored at address `a`. -/
def readPairs (heap : Heap) (a : ℕ) : List (String × String) :=
  match heap.getD a (Cell.pairs []) with
  | Cell.pairs ps => ps
  | Cell.msgs _ => []

/-- `conversation.extend(newMsgs)` / `conversation.append(...)` : in-place
growth of the message list stored at address `a`.  A `pairs` cell at `a`
is left unchanged (Python would raise there; no caller hits that case). -/
def extendCell (heap : Heap) (a : ℕ) (newMsgs : List ChatMessage) : Heap :=
  match heap.getD a (Cell.msgs []) with
  | Cell.msgs ms => heap.set a (Cell.msgs (ms ++ newMsgs))
  | Cell.pairs _ => heap

/-- The conversation-building prefix of `chat_llama3_8b` (lines 208-216) as a
heap transformer, to make the frame property visible: `conversation = []`
allocates a fresh cell at address `heap.length`; the `for` loop calls
`conversation.extend([...])` once per pair of the `history` list stored at
`hAddr`; finally `conversation.append({"role": "user", ...})`.  Returns the
updated heap and the address of the conversation cell. -/
def chatBuildConversation (heap : Heap) (hAddr : ℕ) (message : String) :
    Heap × ℕ :=
  let convAddr := heap.length
  let heap1 := heap ++ [Cell.msgs []]
  let ps := readPairs heap1 hAddr
  let heap2 := ps.foldl
    (fun h p => extendCell h convAddr [⟨"user", p.1⟩, ⟨"assistant", p.2⟩]) heap1
  let heap3 := extendCell heap2 convAddr [⟨"user", message⟩]
  (heap3, convAddr)

/-- The fields of `generate_kwargs` (lines 231-242) that the embedding
tracks: `input_ids`, `streamer` and `eos_token_id` are opaque external
values and carry no verified content. -/
structure GenerateKwargs where
  maxNewTokens : ℕ
  doSample : Bool
  temperature : ℚ
deriving Repr, DecidableEq

/-- `generate_kwargs` as built at lines 231-242: the dict literal sets
`do_sample=True` and passes `temperature` through, then the conditional
`if temperature == 0: generate_kwargs["do_sample"] = False` overwrites
`do_sample` for temperature zero. -/
def buildGenerateKwargs (temperature : ℚ) (max_new_tokens : ℕ) : GenerateKwargs :=
  let kwargs : GenerateKwargs :=
    { maxNewTokens := max_new_tokens, doSample := true, temperature := temperature }
  if temperature = 0 then { kwargs with doSample := false } else kwargs

/-! ### Helper lemmas about `listMin`, `listMax` and `strJoin` -/

theorem foldl_min_le_init (xs : List ℚ) : ∀ a : ℚ, xs.foldl min a ≤ a := by
  induction xs with
  | nil => intro a; simp
  | cons x xs ih =>
      intro a
      exact le_trans (ih (min a x)) (min_le_left a x)

theorem foldl_max_init_le (xs : List ℚ) : ∀ a : ℚ, a ≤ xs.foldl max a := by
  induction xs with
  | nil => intro a; simp
  | cons x xs ih =>
      intro a
      exact le_trans (le_max_left a x) (ih (max a x))

theorem foldl_min_le_mem (xs : List ℚ) : ∀ a y, y ∈ xs → xs.foldl min a ≤ y := by
  induction xs with
  | nil => intro a y hy; cases hy
  | cons x xs ih =>
      intro a y hy
      rcases List.mem_cons.mp hy with hy | hy
      · subst hy
        exact le_trans (foldl_min_le_init xs (min a y)) (min_le_right a y)
      · exact ih (min a x) y hy

theorem mem_le_foldl_max (xs : List ℚ) : ∀ a y, y ∈ xs → y ≤ xs.foldl max a := by
  induction xs with
  | nil => intro a y hy; cases hy
  | cons x xs ih =>
      intro a y hy
      rcases List.mem_cons.mp hy with hy | hy
      · subst hy
        exact le_trans (le_max_right a y) (foldl_max_init_le xs (max a y))
      · exact ih (max a x) y hy

theorem listMin_le_of_mem {ys : List ℚ} {y : ℚ} (h : y ∈ ys) : listMin ys ≤ y := by
  cases ys with
  | nil => cases h
  | cons x xs =>
      rcases List.mem_cons.mp h with h | h
      · subst h; exact foldl_min_le_init xs y
      · exact foldl_min_le_mem xs x y h

theorem le_listMax_of_mem {ys : List ℚ} {y : ℚ} (h : y ∈ ys) : y ≤ listMax ys := by
  cases ys with
  | nil => cases h
  | cons x xs =>
      rcases List.mem_cons.mp h with h | h
      · subst h; exact foldl_max_init_le xs y
      · exact mem_le_foldl_max xs x y h

theorem listMin_le_listMax {ys : List ℚ} (h : ys ≠ []) : listMin ys ≤ listMax ys := by
  cases ys with
  | nil => exact absurd rfl h
  | cons x xs =>
      exact le_trans (listMin_le_of_mem (List.mem_cons_self x xs))
        (le_listMax_of_mem (List.mem_cons_self x xs))

theorem listMin_lt_listMax_of_ne {ys : List ℚ} (h : listMin ys ≠ listMax ys) :
    listMin ys < listMax ys := by
  have hne : ys ≠ [] := by
    intro h0
    subst h0
    exact h rfl
  exact lt_of_le_of_ne (listMin_le_listMax hne) h

theorem foldl_min_const (c : ℚ) (xs : List ℚ) (h : ∀ y ∈ xs, y = c) :
    xs.foldl min c = c := by
  induction xs with
  | nil => rfl
  | cons x xs ih =>
      have hx : x = c := h x (List.mem_cons_self x xs)
      subst hx
      simp only [List.foldl_cons, min_self]
      exact ih (fun y hy => h y (List.mem_cons_of_mem x hy))

theorem foldl_max_const (c : ℚ) (xs : List ℚ) (h : ∀ y ∈ xs, y = c) :
    xs.foldl max c = c := by
  induction xs with
  | nil => rfl
  | cons x xs ih =>
      have hx : x = c := h x (List.mem_cons_self x xs)
      subst hx
      simp only [List.foldl_cons, max_self]
      exact ih (fun y hy => h y (List.mem_cons_of_mem x hy))

theorem listMin_const {c : ℚ} {ys : List ℚ} (h : ∀ y ∈ ys, y = c) (hne : ys ≠ []) :
    listMin ys = c := by
  cases ys with
  | nil => exact absurd rfl hne
  | cons x xs =>
      have hx : x = c := h x (List.mem_cons_self x xs)
      subst hx
      exact foldl_min_const x xs (fun y hy => h y (List.mem_cons_of_mem x hy))

theorem listMax_const {c : ℚ} {ys : List ℚ} (h : ∀ y ∈ ys, y = c) (hne : ys ≠ []) :
    listMax ys = c := by
  cases ys with
  | nil => exact absurd rfl hne
  | cons x xs =>
      have hx : x = c := h x (List.mem_cons_self x xs)
      subst hx
      exact foldl_max_const x xs (fun y hy => h y (List.mem_cons_of_mem x hy))

theorem strJoin_append (a b : List String) : strJoin (a ++ b) = strJoin a ++ strJoin b := by
  induction a with
  | nil => simp [strJoin]
  | cons s rest ih => simp [strJoin, ih, String.append_assoc]

theorem yNormalized_eq_map_normY (ys : List ℚ) : yNormalized ys = ys.map (normY ys) := by
  unfold yNormalized normY
  by_cases h : listMin ys < listMax ys <;> simp [h]

theorem normY_nonneg {ys : List ℚ} {y : ℚ} (h : y ∈ ys) : 0 ≤ normY ys y := by
  unfold normY
  split
  · next hlt =>
      exact div_nonneg (sub_nonneg.mpr (listMin_le_of_mem h))
        (le_of_lt (sub_pos.mpr hlt))
  · exact le_refl 0

theorem normY_le_one {ys : List ℚ} {y : ℚ} (h : y ∈ ys) : normY ys y ≤ 1 := by
  unfold normY
  split
  · next hlt =>
      exact (div_le_one (sub_pos.mpr hlt)).mpr
        (sub_le_sub_right (le_listMax_of_mem h) (listMin ys))
  · exact zero_le_one

theorem normY_mono {ys : List ℚ} {y1 y2 : ℚ} (h12 : y1 ≤ y2) :
    normY ys y1 ≤ normY ys y2 := by
  unfold normY
  split
  · next hlt =>
      exact div_le_div_of_nonneg_right (sub_le_sub_right h12 (listMin ys))
        (le_of_lt (sub_pos.mpr hlt))
  · exact le_refl 0

theorem normY_at_min {ys : List ℚ} (hlt : listMin ys < listMax ys) :
    normY ys (listMin ys) = 0 := by
  simp [normY, hlt]

theorem normY_at_max {ys : List ℚ} (hlt : listMin ys < listMax ys) :
    normY ys (listMax ys) = 1 := by
  simp only [normY, if_pos hlt]
  exact div_self (ne_of_gt (sub_pos.mpr hlt))

/-! ### Claim theorems -/

/-- C9: the generation kwargs passed to `model.generate` have
`do_sample = False` exactly when the `temperature` argument equals `0`, and
`do_sample = True` for every other temperature; the temperature (and the
`max_new_tokens` value) are passed through unchanged in both cases. -/
theorem generate_kwargs_do_sample (t : ℚ) (m : ℕ) :
    ((buildGenerateKwargs t m).doSample = false ↔ t = 0)
    ∧ ((buildGenerateKwargs t m).doSample = true ↔ t ≠ 0)
    ∧ (buildGenerateKwargs t m).temperature = t
    ∧ (buildGenerateKwargs t m).maxNewTokens = m := by
  unfold buildGenerateKwargs
  by_cases h : t = 0 <;> simp [h]

/-- C7: when every vertex of the loaded mesh has the same Y coordinate
(a single-vertex mesh included), the conditional takes the
`np.zeros_like` branch — no division by `y_max - y_min` happens — and every
vertex is colored `(0, 0, 1, 1.0)`: pure blue, fully opaque. -/
theorem uniform_y_gives_blue (mesh : Mesh) (c : ℚ)
    (hne : mesh.vertices ≠ []) (hall : ∀ v ∈ mesh.vertices, v.2.1 = c) :
    yNormalized (yValues mesh) = (yValues mesh).map (fun _ => (0 : ℚ))
    ∧ (recolor mesh).vertexColors
        = mesh.vertices.map (fun _ => ((0 : ℚ), (0 : ℚ), (1 : ℚ), (1 : ℚ))) := by
  have hys : ∀ y ∈ yValues mesh, y = c := by
    intro y hy
    rcases List.mem_map.mp hy with ⟨v, hv, rfl⟩
    exact hall v hv
  have hysne : yValues mesh ≠ [] := by
    intro h0
    apply hne
    unfold yValues at h0
    exact List.map_eq_nil_iff.mp h0
  have hmin : listMin (yValues mesh) = c := listMin_const hys hysne
  have hmax : listMax (yValues mesh) = c := listMax_const hys hysne
  have hnotlt : ¬ listMin (yValues mesh) < listMax (yValues mesh) := by
    rw [hmin, hmax]
    exact lt_irrefl c
  have h1 : yNormalized (yValues mesh) = (yValues mesh).map (fun _ => (0 : ℚ)) := by
    simp [yNormalized, hnotlt]
  refine ⟨h1, ?_⟩
  show gradientColors (yValues mesh) = _
  rw [gradientColors, h1]
  unfold yValues
  rw [List.map_map, List.map_map]
  have hfun : (((fun r => ((r : ℚ), (0 : ℚ), 1 - r, (1 : ℚ)))
        ∘ (fun _ => (0 : ℚ))) ∘ (fun v : ℚ × ℚ × ℚ => v.2.1))
      = fun _ => ((0 : ℚ), (0 : ℚ), (1 : ℚ), (1 : ℚ)) := by
    funext v
    simp
  rw [hfun]

/-- Witness for C7 at the single-vertex mesh with vertex `(0, 5, 0)`. -/
theorem uniform_y_gives_blue_witness :
    (recolor ⟨[((0 : ℚ), 5, 0)], []⟩).vertexColors
      = ([((0 : ℚ), 5, 0)] : List (ℚ × ℚ × ℚ)).map
          (fun _ => ((0 : ℚ), (0 : ℚ), (1 : ℚ), (1 : ℚ))) :=
  (uniform_y_gives_blue ⟨[((0 : ℚ), 5, 0)], []⟩ 5 (by decide) (by decide)).2

theorem recolor_colors_eq_map (mesh : Mesh) :
    (recolor mesh).vertexColors
      = (yValues mesh).map
          (fun y => (normY (yValues mesh) y, (0 : ℚ), 1 - normY (yValues mesh) y, (1 : ℚ))) := by
  show gradientColors (yValues mesh) = _
  rw [gradientColors, yNormalized_eq_map_normY, List.map_map]
  rfl

/-- C8: every color produced by `apply_gradient_color` has each channel in
`[0, 1]`, green channel `0`, alpha channel `1.0`, and red + blue = 1; the red
channel is the monotone-nondecreasing function `normY` of the vertex's Y
coordinate, equal to `0` at the minimum Y and to `1` at the maximum Y
whenever `y_max > y_min`. -/
theorem gradient_color_invariants (mesh : Mesh) :
    (recolor mesh).vertexColors
        = (yValues mesh).map
            (fun y => (normY (yValues mesh) y, (0 : ℚ), 1 - normY (yValues mesh) y, (1 : ℚ)))
    ∧ (∀ c ∈ (recolor mesh).vertexColors,
        0 ≤ c.1 ∧ c.1 ≤ 1 ∧ c.2.1 = 0 ∧ 0 ≤ c.2.2.1 ∧ c.2.2.1 ≤ 1
          ∧ c.2.2.2 = 1 ∧ c.1 + c.2.2.1 = 1)
    ∧ (∀ y1 ∈ yValues mesh, ∀ y2 ∈ yValues mesh,
        y1 ≤ y2 → normY (yValues mesh) y1 ≤ normY (yValues mesh) y2)
    ∧ (listMin (yValues mesh) < listMax (yValues mesh) →
        normY (yValues mesh) (listMin (yValues mesh)) = 0
          ∧ normY (yValues mesh) (listMax (yValues mesh)) = 1) := by
  refine ⟨recolor_colors_eq_map mesh, ?_, ?_, ?_⟩
  · intro col hcol
    rw [recolor_colors_eq_map mesh] at hcol
    rcases List.mem_map.mp hcol with ⟨y, hy, rfl⟩
    have h0 := normY_nonneg hy
    have h1 := normY_le_one hy
    refine ⟨h0, h1, rfl, ?_, ?_, rfl, ?_⟩
    · show 0 ≤ 1 - normY (yValues mesh) y
      linarith
    · show 1 - normY (yValues mesh) y ≤ 1
      linarith
    · show normY (yValues mesh) y + (1 - normY (yValues mesh) y) = 1
      ring
  · intro y1 _ y2 _ h12
    exact normY_mono h12
  · intro hlt
    exact ⟨normY_at_min hlt, normY_at_max hlt⟩

/-- Witness for C8 at the two-vertex mesh with Y coordinates `0` and `2`:
instantiates the per-color bounds, the monotonicity part and the boundary
part at concrete members. -/
theorem gradient_color_invariants_witness :
    ((0 : ℚ) ∈ yValues ⟨[((0 : ℚ), 0, 0), (0, 2, 0)], []⟩
      ∧ (2 : ℚ) ∈ yValues ⟨[((0 : ℚ), 0, 0), (0, 2, 0)], []⟩
      ∧ (0 : ℚ) ≤ 2
      ∧ listMin (yValues ⟨[((0 : ℚ), 0, 0), (0, 2, 0)], []⟩)
          < listMax (yValues ⟨[((0 : ℚ), 0, 0), (0, 2, 0)], []⟩))
    ∧ normY (yValues ⟨[((0 : ℚ), 0, 0), (0, 2, 0)], []⟩) 0
        ≤ normY (yValues ⟨[((0 : ℚ), 0, 0), (0, 2, 0)], []⟩) 2
    ∧ normY (yValues ⟨[((0 : ℚ), 0, 0), (0, 2, 0)], []⟩)
          (listMin (yValues ⟨[((0 : ℚ), 0, 0), (0, 2, 0)], []⟩)) = 0
    ∧ normY (yValues ⟨[((0 : ℚ), 0, 0), (0, 2, 0)], []⟩)
          (listMax (yValues ⟨[((0 : ℚ), 0, 0), (0, 2, 0)], []⟩)) = 1 :=
  ⟨⟨by decide, by decide, by decide, by decide⟩,
    (gradient_color_invariants ⟨[((0 : ℚ), 0, 0), (0, 2, 0)], []⟩).2.2.1
      0 (by decide) 2 (by decide) (by decide),
    ((gradient_color_invariants ⟨[((0 : ℚ), 0, 0), (0, 2, 0)], []⟩).2.2.2 (by decide)).1,
    ((gradient_color_invariants ⟨[((0 : ℚ), 0, 0), (0, 2, 0)], []⟩).2.2.2 (by decide)).2⟩

theorem recolor_colors_formula (M : Mesh)
    (hlt : listMin (yValues M) < listMax (yValues M)) :
    (recolor M).vertexColors
      = M.vertices.map (fun v =>
          ((v.2.1 - listMin (yValues M)) / (listMax (yValues M) - listMin (yValues M)),
           (0 : ℚ),
           1 - (v.2.1 - listMin (yValues M)) / (listMax (yValues M) - listMin (yValues M)),
           (1 : ℚ))) := by
  show gradientColors (yValues M) = _
  rw [gradientColors, yNormalized, if_pos hlt]
  show List.map _ (List.map _ (List.map (fun v => v.2.1) M.vertices)) = _
  rw [List.map_map, List.map_map]
  rfl

/-- C1: for every pasted OBJ text whose loaded vertex set has distinct
minimum and maximum Y coordinates, `apply_gradient_color` gives every vertex
the color `((y - y_min) / (y_max - y_min), 0, 1 - red, 1.0)` and returns a
path with suffix `".glb"` — namely the temp name extended by `".glb"` —
at which the file system holds the GLB export bytes of the recolored mesh. -/
theorem apply_gradient_color_correct
    (load_mesh : String → Mesh) (export_glb : Mesh → List ℕ)
    (tempName mesh_text : String) (fs : FileSystem)
    (hdistinct : listMin (yValues (load_mesh mesh_text))
        ≠ listMax (yValues (load_mesh mesh_text))) :
    (apply_gradient_color load_mesh export_glb tempName mesh_text fs).2
        = tempName ++ ".glb"
    ∧ (∃ stem, (apply_gradient_color load_mesh export_glb tempName mesh_text fs).2
        = stem ++ ".glb")
    ∧ readFile (apply_gradient_color load_mesh export_glb tempName mesh_text fs).1
          (apply_gradient_color load_mesh export_glb tempName mesh_text fs).2
        = some (FileData.bytes (export_glb (recolor (load_mesh mesh_text))))
    ∧ (recolor (load_mesh mesh_text)).vertexColors
        = (load_mesh mesh_text).vertices.map (fun v =>
            ((v.2.1 - listMin (yValues (load_mesh mesh_text)))
                / (listMax (yValues (load_mesh mesh_text))
                    - listMin (yValues (load_mesh mesh_text))),
             (0 : ℚ),
             1 - (v.2.1 - listMin (yValues (load_mesh mesh_text)))
                / (listMax (yValues (load_mesh mesh_text))
                    - listMin (yValues (load_mesh mesh_text))),
             (1 : ℚ))) := by
  have hobj : readFile (writeFile fs (tempName ++ ".obj") (FileData.text mesh_text))
      (tempName ++ ".obj") = some (FileData.text mesh_text) := by
    simp [readFile, writeFile]
  have hmain : apply_gradient_color load_mesh export_glb tempName mesh_text fs
      = (writeFile (writeFile fs (tempName ++ ".obj") (FileData.text mesh_text))
            (tempName ++ ".glb")
            (FileData.bytes (export_glb (recolor (load_mesh mesh_text)))),
          tempName ++ ".glb") := by
    simp only [apply_gradient_color]
    rw [hobj]
  have hlt := listMin_lt_listMax_of_ne hdistinct
  refine ⟨by rw [hmain], ⟨tempName, by rw [hmain]⟩, ?_, recolor_colors_formula _ hlt⟩
  rw [hmain]
  simp [readFile, writeFile]

/-- Witness for C1: a two-vertex mesh with Y coordinates `0` and `1`, a
constant stand-in for `trimesh.load_mesh`, byte list `[7]` as the GLB export,
temp name `"t"`. -/
theorem apply_gradient_color_correct_witness :
    (listMin (yValues ((fun _ => (⟨[((0 : ℚ), 0, 0), (0, 1, 0)], []⟩ : Mesh)) "v 0 1 0"))
        ≠ listMax (yValues ((fun _ => (⟨[((0 : ℚ), 0, 0), (0, 1, 0)], []⟩ : Mesh)) "v 0 1 0")))
    ∧ (apply_gradient_color (fun _ => ⟨[((0 : ℚ), 0, 0), (0, 1, 0)], []⟩)
        (fun _ => [7]) "t" "v 0 1 0" []).2 = "t" ++ ".glb" :=
  ⟨by decide,
    (apply_gradient_color_correct (fun _ => ⟨[((0 : ℚ), 0, 0), (0, 1, 0)], []⟩)
      (fun _ => [7]) "t" "v 0 1 0" [] (by decide)).1⟩

theorem streamRaw_err_flag (chunks : List String) :
    ∀ outputs err, (streamRaw outputs chunks err).2.2 = err := by
  induction chunks with
  | nil => intro outputs err; rfl
  | cons c rest ih => intro outputs err; exact ih (outputs ++ [c]) err

theorem streamRaw_outputs (chunks : List String) :
    ∀ outputs err, (streamRaw outputs chunks err).2.1 = outputs ++ chunks := by
  induction chunks with
  | nil => intro outputs err; simp [streamRaw]
  | cons c rest ih =>
      intro outputs err
      show (streamRaw (outputs ++ [c]) rest err).2.1 = outputs ++ c :: rest
      rw [ih (outputs ++ [c]) err]
      simp

theorem streamRaw_yields_irrel (chunks : List String) :
    ∀ outputs, (streamRaw outputs chunks true).1 = (streamRaw outputs chunks false).1 := by
  induction chunks with
  | nil => intro outputs; rfl
  | cons c rest ih =>
      intro outputs
      show strJoin (outputs ++ [c]) :: (streamRaw (outputs ++ [c]) rest true).1
          = strJoin (outputs ++ [c]) :: (streamRaw (outputs ++ [c]) rest false).1
      rw [ih (outputs ++ [c])]

theorem streamRaw_length (chunks : List String) :
    ∀ outputs err, (streamRaw outputs chunks err).1.length = chunks.length := by
  induction chunks with
  | nil => intro outputs err; rfl
  | cons c rest ih =>
      intro outputs err
      show ((streamRaw (outputs ++ [c]) rest err).1.length) + 1 = rest.length + 1
      rw [ih (outputs ++ [c]) err]

theorem streamRaw_get (chunks : List String) :
    ∀ outputs err k (hk : k < (streamRaw outputs chunks err).1.length),
      (streamRaw outputs chunks err).1.get ⟨k, hk⟩
        = strJoin (outputs ++ chunks.take (k + 1)) := by
  induction chunks with
  | nil =>
      intro outputs err k hk
      exact absurd hk (by simp [streamRaw])
  | cons c rest ih =>
      intro outputs err k hk
      match k with
      | 0 => simp [streamRaw]
      | k + 1 =>
          have hk2 : k < (streamRaw (outputs ++ [c]) rest err).1.length := by
            have h3 := hk
            rw [streamRaw_length (c :: rest) outputs err] at h3
            rw [streamRaw_length rest (outputs ++ [c]) err]
            exact Nat.succ_lt_succ_iff.mp h3
          show (strJoin (outputs ++ [c]) :: (streamRaw (outputs ++ [c]) rest err).1).get
              ⟨k + 1, _⟩ = _
          rw [List.get_cons_succ]
          rw [ih (outputs ++ [c]) err k hk2]
          congr 1
          simp [List.append_assoc]

theorem streamRaw_getLast (chunks : List String) :
    ∀ outputs err, chunks ≠ [] →
      ((streamRaw outputs chunks err).1).getLast? = some (strJoin (outputs ++ chunks)) := by
  induction chunks with
  | nil => intro outputs err h; exact absurd rfl h
  | cons c rest ih =>
      intro outputs err _
      cases rest with
      | nil => simp [streamRaw, strJoin]
      | cons r rs =>
          have htail := ih (outputs ++ [c]) err (List.cons_ne_nil r rs)
          show (strJoin (outputs ++ [c])
              :: (streamRaw (outputs ++ [c]) (r :: rs) err).1).getLast?
              = some (strJoin (outputs ++ (c :: r :: rs)))
          have hcons : (streamRaw (outputs ++ [c]) (r :: rs) err).1
              = strJoin ((outputs ++ [c]) ++ [r])
                  :: (streamRaw ((outputs ++ [c]) ++ [r]) rs err).1 := rfl
          rw [hcons, List.getLast?_cons_cons, ← hcons, htail]
          congr 2
          simp

theorem chatYields_false (chunks : List String) :
    chatYields chunks false = (streamRaw [] chunks false).1 := by
  show (if (streamRaw [] chunks false).2.2 then
      (streamRaw [] chunks false).1
        ++ [strJoin (streamRaw [] chunks false).2.1 ++ errorSuffix]
    else (streamRaw [] chunks false).1) = _
  rw [streamRaw_err_flag]
  simp

theorem chatYields_true (chunks : List String) :
    chatYields chunks true
      = (streamRaw [] chunks true).1 ++ [strJoin chunks ++ errorSuffix] := by
  show (if (streamRaw [] chunks true).2.2 then
      (streamRaw [] chunks true).1
        ++ [strJoin (streamRaw [] chunks true).2.1 ++ errorSuffix]
    else (streamRaw [] chunks true).1) = _
  rw [streamRaw_err_flag, streamRaw_outputs]
  simp

/-- C2: when the streamer iterator raises after delivering `chunks`, the
exception is caught — `chatYields` still returns an ordinary list of yielded
values — and exactly one value is yielded after the in-loop yields, equal to
the concatenation of all chunks received before the exception followed by the
literal `"\n\n[Error during generation. Please try again.]"`. -/
theorem chat_stream_error_handling (chunks : List String) :
    chatYields chunks true = chatYields chunks false ++ [strJoin chunks ++ errorSuffix]
    ∧ (chatYields chunks true).length = (chatYields chunks false).length + 1
    ∧ (chatYields chunks true).getLast? = some (strJoin chunks ++ errorSuffix) := by
  have h : chatYields chunks true
      = chatYields chunks false ++ [strJoin chunks ++ errorSuffix] := by
    rw [chatYields_true, chatYields_false, streamRaw_yields_irrel]
  refine ⟨h, ?_, ?_⟩
  · rw [h]; simp
  · rw [h]; simp

/-- C3: in an error-free run, the k-th yielded value is the concatenation of
the first k chunks, every yielded value is a prefix of each later one (the
later value extends it by a concrete tail), and the last yielded value is the
concatenation of all streamed chunks. -/
theorem chat_stream_accumulates (chunks : List String) :
    (chatYields chunks false).length = chunks.length
    ∧ (∀ k (hk : k < (chatYields chunks false).length),
        (chatYields chunks false).get ⟨k, hk⟩ = strJoin (chunks.take (k + 1)))
    ∧ (∀ i j (hi : i < (chatYields chunks false).length)
        (hj : j < (chatYields chunks false).length), i ≤ j →
        ∃ tail, (chatYields chunks false).get ⟨j, hj⟩
            = (chatYields chunks false).get ⟨i, hi⟩ ++ tail)
    ∧ (chunks ≠ [] → (chatYields chunks false).getLast? = some (strJoin chunks)) := by
  have hlen : (chatYields chunks false).length = chunks.length := by
    rw [chatYields_false, streamRaw_length]
  have hget : ∀ k (hk : k < (chatYields chunks false).length),
      (chatYields chunks false).get ⟨k, hk⟩ = strJoin (chunks.take (k + 1)) := by
    intro k hk
    have hk' : k < (streamRaw [] chunks false).1.length := by
      rw [← chatYields_false]
      exact hk
    have h1 : (chatYields chunks false).get? k
        = some (strJoin (chunks.take (k + 1))) := by
      rw [chatYields_false, List.get?_eq_get hk', streamRaw_get chunks [] false k hk']
      simp
    have h2 : (chatYields chunks false).get? k
        = some ((chatYields chunks false).get ⟨k, hk⟩) := List.get?_eq_get hk
    rw [h1] at h2
    exact (Option.some.inj h2).symm
  refine ⟨hlen, hget, ?_, ?_⟩
  · intro i j hi hj hij
    have hgi := hget i hi
    have hgj := hget j hj
    have htake : chunks.take (j + 1)
        = chunks.take (i + 1) ++ (chunks.drop (i + 1)).take (j - i) := by
      rw [← List.take_add]
      congr 1
      omega
    refine ⟨strJoin ((chunks.drop (i + 1)).take (j - i)), ?_⟩
    rw [hgi, hgj, htake, strJoin_append]
  · intro hne
    rw [chatYields_false]
    have h := streamRaw_getLast chunks [] false hne
    simpa using h

/-- Witness for C3 at the chunk list `["a", "b"]`. -/
theorem chat_stream_accumulates_witness :
    (["a", "b"] : List String) ≠ []
    ∧ (chatYields ["a", "b"] false).getLast? = some (strJoin ["a", "b"]) :=
  ⟨by simp, (chat_stream_accumulates ["a", "b"]).2.2.2 (by simp)⟩

theorem buildConversation_bind (history : List (String × String)) (message : String) :
    buildConversation history message
      = (history.flatMap fun p => [⟨"user", p.1⟩, ⟨"assistant", p.2⟩])
          ++ [ChatMessage.mk "user" message] := by
  induction history with
  | nil => rfl
  | cons p rest ih =>
      cases p with
      | mk u a => simp [buildConversation, ih]

theorem buildConversation_length (history : List (String × String)) (message : String) :
    (buildConversation history message).length = 2 * history.length + 1 := by
  induction history with
  | nil => rfl
  | cons p rest ih =>
      cases p with
      | mk u a =>
          show (buildConversation rest message).length + 1 + 1 = _
          rw [ih, List.length_cons]
          ring

theorem buildConversation_role (history : List (String × String)) (message : String) :
    ∀ i (hi : i < (buildConversation history message).length),
      ((buildConversation history message).get ⟨i, hi⟩).role
        = if i % 2 = 0 then "user" else "assistant" := by
  induction history with
  | nil =>
      intro i hi
      match i, hi with
      | 0, _ => rfl
  | cons p rest ih =>
      cases p with
      | mk u a =>
          intro i hi
          match i with
          | 0 => rfl
          | 1 => rfl
          | i + 2 =>
              have hi2 : i < (buildConversation rest message).length := by
                have h3 := hi
                rw [buildConversation_length, List.length_cons] at h3
                rw [buildConversation_length]
                omega
              show ((buildConversation rest message).get ⟨i, _⟩).role = _
              rw [ih i hi2, Nat.add_mod_right]

/-- C4: the conversation passed to `apply_chat_template` is exactly the
history pairs in order, each expanded into a user entry then an assistant
entry, followed by one final user entry with the new message; it has length
`2 * len(history) + 1`, its roles strictly alternate (index `i` has role
`"user"` for even `i`, `"assistant"` for odd `i`), and it ends with the
user entry carrying the new message. -/
theorem chat_conversation_shape (history : List (String × String)) (message : String) :
    buildConversation history message
        = (history.flatMap fun p => [⟨"user", p.1⟩, ⟨"assistant", p.2⟩])
            ++ [ChatMessage.mk "user" message]
    ∧ (buildConversation history message).length = 2 * history.length + 1
    ∧ (∀ i (hi : i < (buildConversation history message).length),
        ((buildConversation history message).get ⟨i, hi⟩).role
          = if i % 2 = 0 then "user" else "assistant")
    ∧ (buildConversation history message).getLast? = some ⟨"user", message⟩ :=
  ⟨buildConversation_bind history message,
   buildConversation_length history message,
   buildConversation_role history message,
   by rw [buildConversation_bind history message]; simp⟩

/-- Witness for C4 at the one-pair history `[("hi", "yo")]` and message
`"msg"`: index 1 carries the assistant role and the conversation ends with
the new user message. -/
theorem chat_conversation_shape_witness :
    ((buildConversation [("hi", "yo")] "msg").get ⟨1, by simp [buildConversation]⟩).role
        = (if 1 % 2 = 0 then "user" else "assistant")
    ∧ (buildConversation [("hi", "yo")] "msg").getLast? = some ⟨"user", "msg"⟩ :=
  ⟨(chat_conversation_shape [("hi", "yo")] "msg").2.2.1 1 (by simp [buildConversation]),
   (chat_conversation_shape [("hi", "yo")] "msg").2.2.2⟩

theorem extendCell_get?_ne (heap : Heap) (a b : ℕ) (newMsgs : List ChatMessage)
    (hab : a ≠ b) : (extendCell heap a newMsgs).get? b = heap.get? b := by
  unfold extendCell
  split
  · exact List.get?_set_ne _ _ hab
  · rfl

theorem foldl_extendCell_get?_ne (ps : List (String × String)) :
    ∀ (heap : Heap) (a b : ℕ), a ≠ b →
      (ps.foldl (fun h p => extendCell h a [⟨"user", p.1⟩, ⟨"assistant", p.2⟩]) heap).get? b
        = heap.get? b := by
  induction ps with
  | nil => intro heap a b _; rfl
  | cons p rest ih =>
      intro heap a b hab
      show (rest.foldl (fun h p => extendCell h a [⟨"user", p.1⟩, ⟨"assistant", p.2⟩])
          (extendCell heap a [⟨"user", p.1⟩, ⟨"assistant", p.2⟩])).get? b = heap.get? b
      rw [ih (extendCell heap a [⟨"user", p.1⟩, ⟨"assistant", p.2⟩]) a b hab]
      exact extendCell_get?_ne heap a b _ hab

theorem extendCell_get?_at (heap : Heap) (a : ℕ) (ms : List ChatMessage)
    (newMsgs : List ChatMessage) (h : heap.get? a = some (Cell.msgs ms)) :
    (extendCell heap a newMsgs).get? a = some (Cell.msgs (ms ++ newMsgs)) := by
  have ha : a < heap.length := by
    by_contra hge
    rw [List.get?_eq_none.mpr (le_of_not_lt hge)] at h
    exact Option.noConfusion h
  have hgetD : heap.getD a (Cell.msgs []) = Cell.msgs ms := by
    unfold List.getD
    rw [h]
    rfl
  unfold extendCell
  rw [hgetD]
  exact List.get?_set_eq_of_lt (Cell.msgs (ms ++ newMsgs)) ha

theorem foldl_extendCell_content (ps : List (String × String)) :
    ∀ (heap : Heap) (a : ℕ) (ms : List ChatMessage),
      heap.get? a = some (Cell.msgs ms) →
      (ps.foldl (fun h p => extendCell h a [⟨"user", p.1⟩, ⟨"assistant", p.2⟩]) heap).get? a
        = some (Cell.msgs
            (ms ++ ps.flatMap fun p => [⟨"user", p.1⟩, ⟨"assistant", p.2⟩])) := by
  induction ps with
  | nil => intro heap a ms h; simpa using h
  | cons p rest ih =>
      intro heap a ms h
      show (rest.foldl (fun h p => extendCell h a [⟨"user", p.1⟩, ⟨"assistant", p.2⟩])
          (extendCell heap a [⟨"user", p.1⟩, ⟨"assistant", p.2⟩])).get? a = _
      have hstep := extendCell_get?_at heap a ms
        [⟨"user", p.1⟩, ⟨"assistant", p.2⟩] h
      rw [ih _ a _ hstep]
      simp

theorem readPairs_append_fresh (heap : Heap) (hAddr : ℕ) (c : Cell)
    (h : hAddr < heap.length) : readPairs (heap ++ [c]) hAddr = readPairs heap hAddr := by
  unfold readPairs List.getD
  rw [List.get?_append h]

/-- C5: the conversation-building prefix of `chat_llama3_8b` never mutates
its `history` argument: the heap cell holding the history list — and hence
the pairs inside it — is identical before and after the call, while the
conversation is built in a freshly allocated cell whose final contents are
exactly `buildConversation history message`. -/
theorem chat_history_not_mutated (heap : Heap) (hAddr : ℕ) (message : String)
    (h : hAddr < heap.length) :
    (chatBuildConversation heap hAddr message).1.get? hAddr = heap.get? hAddr
    ∧ (chatBuildConversation heap hAddr message).1.get?
          (chatBuildConversation heap hAddr message).2
        = some (Cell.msgs (buildConversation (readPairs heap hAddr) message)) := by
  have hne : heap.length ≠ hAddr := Nat.ne_of_gt h
  have hps : readPairs (heap ++ [Cell.msgs []]) hAddr = readPairs heap hAddr :=
    readPairs_append_fresh heap hAddr (Cell.msgs []) h
  constructor
  · show (extendCell
        ((readPairs (heap ++ [Cell.msgs []]) hAddr).foldl
          (fun h p => extendCell h heap.length [⟨"user", p.1⟩, ⟨"assistant", p.2⟩])
          (heap ++ [Cell.msgs []]))
        heap.length [⟨"user", message⟩]).get? hAddr = heap.get? hAddr
    rw [extendCell_get?_ne _ _ _ _ hne,
      foldl_extendCell_get?_ne _ _ _ _ hne,
      List.get?_append h]
  · show (extendCell
        ((readPairs (heap ++ [Cell.msgs []]) hAddr).foldl
          (fun h p => extendCell h heap.length [⟨"user", p.1⟩, ⟨"assistant", p.2⟩])
          (heap ++ [Cell.msgs []]))
        heap.length [⟨"user", message⟩]).get? heap.length = _
    have hfresh : (heap ++ [Cell.msgs []]).get? heap.length = some (Cell.msgs []) :=
      List.get?_concat_length heap (Cell.msgs [])
    have hfold := foldl_extendCell_content
      (readPairs (heap ++ [Cell.msgs []]) hAddr) (heap ++ [Cell.msgs []])
      heap.length [] hfresh
    rw [extendCell_get?_at _ _ _ [⟨"user", message⟩] hfold, hps]
    rw [buildConversation_bind]
    simp

/-- Witness for C5: a one-cell heap holding the history `[("q", "a")]` at
address `0`. -/
theorem chat_history_not_mutated_witness :
    (0 < ([Cell.pairs [("q", "a")]] : Heap).length)
    ∧ (chatBuildConversation [Cell.pairs [("q", "a")]] 0 "m").1.get? 0
        = ([Cell.pairs [("q", "a")]] : Heap).get? 0 :=
  ⟨by simp, (chat_history_not_mutated [Cell.pairs [("q", "a")]] 0 "m" (by simp)).1⟩
